import Mathlib

/-!
Verification development for the BuildHub repository
(`src/github_builder_app.py`), a small Streamlit application that

* lists the branches of a remote git repository (`get_branches`),
* clones one selected branch (`clone_repo`),
* locates a conventional build-output directory (`find_build_dir`,
  driven by the `BUILD_DIRS` table), and
* packages that directory into a zip archive (`zip_directory`),

orchestrated by a form handler (`main`).

The Python functions are shallowly embedded below.  Pure computations
(string splitting, sorting, deduplication, path derivation, the
candidate-directory scan, the recursive file walk feeding the zip
writer) are translated directly into Lean functions.  Interactions with
the external git client and the filesystem are modelled by explicit
state passing: the outcome of an external call (clone success/failure,
the set of remote refs, archive-write success/failure) is a parameter
of the model, and the model reproduces exactly the control flow of the
Python source around those calls.  Compression is modelled as a
lossless store of the file bytes, which is the contract of the external
zip library (`ZIP_DEFLATED` is lossless); the code under verification
only chooses which entries are written and under which names.
-/

/-! ## Strings and paths -/

/-- A filesystem path, as its list of `/`-separated segments. -/
abbrev FPath := List String

/-- File contents, as a list of bytes. -/
abbrev Content := List Nat

/-- Python's `s.split('/')` on the character list: splitting at every
`'/'`, keeping empty segments (`"a//b" ↦ ["a","","b"]`, `"" ↦ [""]`). -/
def splitSlash : List Char → List (List Char)
  | [] => [[]]
  | c :: rest =>
    if c = '/' then [] :: splitSlash rest
    else match splitSlash rest with
      | [] => [[c]]
      | seg :: segs => (c :: seg) :: segs

/-- Python's `s.split('/')`. -/
def splitSegs (s : String) : List String :=
  (splitSlash s.data).map (fun cs => String.mk cs)

/-- Python's `s.split('/')[-1]`: the final `/`-separated segment
(`split` never returns an empty list, so indexing `[-1]` never fails;
the default of `getLastD` is therefore irrelevant). -/
def lastSegment (s : String) : String :=
  (splitSegs s).getLastD ""

/-- Python's `s.rstrip('/')`: drop every trailing `'/'`. -/
def rstripSlash (s : String) : String :=
  String.mk ((s.data.reverse.dropWhile (fun c => c = '/')).reverse)

/-- Python's `<=` on strings: lexicographic comparison of the code
points, on character lists. -/
def lexLe : List Char → List Char → Bool
  | [], _ => true
  | _ :: _, [] => false
  | a :: as, b :: bs =>
    if a.toNat < b.toNat then true
    else if b.toNat < a.toNat then false
    else lexLe as bs

/-- Python's `<=` on strings. -/
def strLe (a b : String) : Bool := lexLe a.data b.data

/-! ## Branch listing (`get_branches`, lines 29-36)

The pure tail of `get_branches`:
`sorted(set(ref.name.split('/')[-1] for ref in repo.remote().refs))`.
The list of remote-ref names obtained from the clone is the model's
input.  Python's `sorted(set(xs))` is the lexicographically sorted list
of the distinct elements of `xs`; it is embedded as `dedup` followed by
`mergeSort`. -/

/-- The branch names computed by `get_branches` from the remote-ref
names: last `/`-segment of every ref name, deduplicated, sorted
(Python's `sorted` on a `set` returns the distinct elements in
ascending string order). -/
def branchesFromRefs (refs : List String) : List String :=
  List.insertionSort (fun a b => strLe a b = true) ((refs.map lastSegment).dedup)

/-- The ref names a fresh clone presents for the remote branches:
GitPython names remote refs `origin/<branch>`. -/
def remoteRefs (branches : List String) : List String :=
  branches.map (fun b => "origin/" ++ b)

/-- `get_branches` as a function of the remote's branch names. -/
def listBranches (branches : List String) : List String :=
  branchesFromRefs (remoteRefs branches)

/-! ## Derived paths (`main`, lines 104-105 and 123-124)

`repo_name = repo_url.rstrip('/').split('/')[-1]`,
`repo_path = WORKSPACE_DIR / f"{repo_name}-{branch}"`,
`zip_path  = WORKSPACE_DIR / f"{repo_name}-{branch}-{project_type}.zip"`,
with `WORKSPACE_DIR = Path("workspace")`. -/

/-- The repository name `main` derives from the URL. -/
def repoNameOf (url : String) : String :=
  lastSegment (rstripSlash url)

/-- The closed project-type enumeration offered by the form. -/
inductive ProjectType where
  | UI
  | Microservice
deriving DecidableEq

/-- The string the form passes around for a project type. -/
def ptName : ProjectType → String
  | .UI => "UI"
  | .Microservice => "Microservice"

/-- The clone destination `workspace/<repo_name>-<branch>`. -/
def derivedClonePath (url branch : String) : FPath :=
  ["workspace", repoNameOf url ++ "-" ++ branch]

/-- The archive path `workspace/<repo_name>-<branch>-<type>.zip`. -/
def derivedZipPath (url branch : String) (pt : ProjectType) : FPath :=
  ["workspace", repoNameOf url ++ "-" ++ branch ++ "-" ++ ptName pt ++ ".zip"]

/-! ## Directory trees

A snapshot of a filesystem subtree: a node is a regular file with its
bytes, or a directory with a finite ordered list of named children
(the order is the directory-listing order `os.walk` reports). -/

mutual

inductive FSTree where
  | file (content : Content) : FSTree
  | dir (entries : FSEntries) : FSTree

inductive FSEntries where
  | nil : FSEntries
  | cons (name : String) (child : FSTree) (rest : FSEntries) : FSEntries

end

/-- The names of a directory's immediate children. -/
def namesOf : FSEntries → List String
  | .nil => []
  | .cons n _ r => n :: namesOf r

/-- First child with the given name, if any. -/
def getEntry : FSEntries → String → Option FSTree
  | .nil, _ => none
  | .cons m t r, n => if m = n then some t else getEntry r n

/-- Resolve a relative path inside a tree. -/
def getNode : FSTree → FPath → Option FSTree
  | t, [] => some t
  | .file _, _ :: _ => none
  | .dir es, n :: rest =>
    match getEntry es n with
    | some t => getNode t rest
    | none => none

/-- The bytes of the regular file at a path, if the path resolves to a
regular file. -/
def getFile (t : FSTree) (p : FPath) : Option Content :=
  match getNode t p with
  | some (.file c) => some c
  | _ => none

/-- `Path.exists()` relative to a tree. -/
def pathExistsb (t : FSTree) (p : FPath) : Bool :=
  (getNode t p).isSome

/-- `Path.is_dir()` relative to a tree. -/
def pathIsDirb (t : FSTree) (p : FPath) : Bool :=
  match getNode t p with
  | some (.dir _) => true
  | _ => false

/-! Well-formedness of a directory snapshot: sibling names are
distinct, as a real filesystem guarantees. -/

mutual

def FSTree.wfb : FSTree → Bool
  | .file _ => true
  | .dir es => FSEntries.wfb es

def FSEntries.wfb : FSEntries → Bool
  | .nil => true
  | .cons n t r => !((namesOf r).contains n) && FSTree.wfb t && FSEntries.wfb r

end

/-! ## Build-folder search (`find_build_dir`, lines 52-57, and
`BUILD_DIRS`, lines 13-16) -/

/-- The fixed candidate table `BUILD_DIRS`. -/
def BUILD_DIRS : ProjectType → List String
  | .UI => ["build", "dist", "out"]
  | .Microservice => ["target", "app", "output"]

/-- `find_build_dir(repo_path, project_type)`: scan the candidate list
in declared order and return the first name that exists as a directory
under the repo root (`candidate.exists() and candidate.is_dir()`);
`none` when no candidate matches.  The repo is given as the tree
rooted at `repo_path`, so each candidate is the relative path
`[folder]`. -/
def find_build_dir (repo : FSTree) (pt : ProjectType) : Option String :=
  (BUILD_DIRS pt).find? (fun folder => pathExistsb repo [folder] && pathIsDirb repo [folder])

/-! ## Archiving (`zip_directory`, lines 41-47)

`os.walk(source_dir)` enumerates, top-down, every directory below
`source_dir`; for each one it reports the regular files it directly
contains, in listing order.  The code writes each such file into the
archive under `(Path(root)/file).relative_to(source_dir)`, storing the
file's bytes (DEFLATE is lossless, so an entry is modelled by its
arcname and bytes; `relative_to` raises `ValueError` when the walked
path is not below `source_dir`, hence the `Option` result of the
embedded `relative_to` and of `zip_directory` itself). -/

/-- The `(root/file, bytes)` pairs for the regular files directly in a
directory, in listing order. -/
def walkFiles : FSEntries → FPath → List (FPath × Content)
  | .nil, _ => []
  | .cons n (.file c) r, root => (root ++ [n], c) :: walkFiles r root
  | .cons _ (.dir _) r, root => walkFiles r root

mutual

/-- All `(absolute path, bytes)` pairs `os.walk` lets `zip_directory`
visit below a node placed at `root`: the node's own files first, then
each subdirectory recursively, in listing order. -/
def walkAbs : FSTree → FPath → List (FPath × Content)
  | .file _, _ => []
  | .dir es, root => walkFiles es root ++ walkSub es root

def walkSub : FSEntries → FPath → List (FPath × Content)
  | .nil, _ => []
  | .cons n t r, root => walkAbs t (root ++ [n]) ++ walkSub r root

end

/-- `PurePath.relative_to`: strip `base` from the front of `p`;
`none` models the `ValueError` raised when `base` is not a prefix. -/
def relative_to : FPath → FPath → Option FPath
  | p, [] => some p
  | [], _ :: _ => none
  | a :: p, b :: base => if a = b then relative_to p base else none

/-- Write one archive entry per walked file, keyed by its path
relative to `source_dir`; any `relative_to` failure aborts the whole
archive (an uncaught exception in the Python loop). -/
def collectEntries : List (FPath × Content) → FPath → Option (List (FPath × Content))
  | [], _ => some []
  | pc :: rest, sd =>
    match relative_to pc.1 sd, collectEntries rest sd with
    | some a, some es => some ((a, pc.2) :: es)
    | _, _ => none

/-- `zip_directory(source_dir, zip_path)`: the list of archive entries
(arcname, bytes) written for the tree at `source_dir`. -/
def zip_directory (source_dir : FPath) (t : FSTree) : Option (List (FPath × Content)) :=
  collectEntries (walkAbs t source_dir) source_dir

/-- Reading an extracted archive: the bytes the first entry with the
given arcname carries, i.e. the content extraction places at that
relative path. -/
def lookupEntry : List (FPath × Content) → FPath → Option Content
  | [], _ => none
  | e :: rest, p => if e.1 = p then some e.2 else lookupEntry rest p

/-! ## Reference enumeration of a tree's files

`relFiles t` lists every regular file below `t` with its path relative
to `t`, in the same order as `walkAbs`; it is the yardstick the walk
and the archive are compared against. -/

/-- The direct files of a directory under singleton relative paths. -/
def relFilesTop : FSEntries → List (FPath × Content)
  | .nil => []
  | .cons n (.file c) r => ([n], c) :: relFilesTop r
  | .cons _ (.dir _) r => relFilesTop r

mutual

def relFiles : FSTree → List (FPath × Content)
  | .file _ => []
  | .dir es => relFilesTop es ++ relSub es

def relSub : FSEntries → List (FPath × Content)
  | .nil => []
  | .cons n t r => (relFiles t).map (fun pc => (n :: pc.1, pc.2)) ++ relSub r

end

/-! ## Exceptions

The Python exception kinds the handlers distinguish:
`GitCommandError` (raised by the git client), `IOError`/`OSError`
(filesystem and archive failures), and every other `Exception`. -/

inductive PyExc where
  | gitCommandError
  | ioError
  | otherError
deriving DecidableEq

/-! ## Cloning (`clone_repo`, lines 21-24)

`clone_repo` is a sequence of two filesystem effects on the
destination path: `shutil.rmtree(dest_path)` (only when the path
exists) and `Repo.clone_from(repo_url, dest_path, branch=branch)`.
The model makes the effect sequence explicit and interprets it on the
state of the destination path (`none` = absent, `some t` = a directory
with content `t`).  The external git client is modelled by a function
from branch name to the content a fresh clone of that branch
produces; `git clone` fails on a pre-existing non-empty destination,
and `rmtree` fails on a missing path, so the interpreter checks both
preconditions rather than assume them. -/

inductive CloneOp where
  | rmtreeOp : CloneOp
  | gitCloneBranch (branch : String) : CloneOp

/-- The effect sequence `clone_repo` issues: conditional recursive
delete, then a clone of exactly the named branch. -/
def clone_repo_ops (destExists : Bool) (branch : String) : List CloneOp :=
  (if destExists then [CloneOp.rmtreeOp] else []) ++ [CloneOp.gitCloneBranch branch]

/-- One effect on the destination-path state. -/
def applyCloneOp (gitContent : String → FSTree) :
    Option FSTree → CloneOp → Except PyExc (Option FSTree)
  | some _, .rmtreeOp => .ok none
  | none, .rmtreeOp => .error .ioError
  | none, .gitCloneBranch b => .ok (some (gitContent b))
  | some _, .gitCloneBranch _ => .error .gitCommandError

def runCloneOps (gitContent : String → FSTree) :
    Option FSTree → List CloneOp → Except PyExc (Option FSTree)
  | st, [] => .ok st
  | st, op :: ops =>
    match applyCloneOp gitContent st op with
    | .ok st' => runCloneOps gitContent st' ops
    | .error e => .error e

/-- `clone_repo(repo_url, dest_path, branch)` run against a
destination whose current state is `st`. -/
def clone_repo (gitContent : String → FSTree) (st : Option FSTree) (branch : String) :
    Except PyExc (Option FSTree) :=
  runCloneOps gitContent st (clone_repo_ops st.isSome branch)

/-! ## Branch listing with its temporary directory
(`get_branches`, lines 29-36)

The function removes a pre-existing `workspace/temp_repo`, clones
shallowly into it, reads the remote refs, removes the directory and
returns the sorted names.  There is no `try`/`finally`: the final
`rmtree` runs only when both the clone and the refs read succeed.  The
model tracks whether the temporary directory exists when the call
returns (normally or by raising), with the outcomes of the two
external steps as inputs; whether a *failed* clone leaves the
directory behind is the git client's business, so it is a parameter
too. -/

structure GetBranchesEnv where
  /-- Does `Repo.clone_from(repo_url, tmp_path, depth=1)` succeed? -/
  cloneOk : Bool
  /-- Does a failed clone leave `tmp_path` behind? -/
  cloneFailLeavesDir : Bool
  /-- Does reading `repo.remote().refs` succeed? -/
  refsOk : Bool
  /-- The remote-ref names the clone presents. -/
  refs : List String

structure GetBranchesResult where
  /-- `some names` on normal return, `none` when an exception
  propagates to the caller. -/
  result : Option (List String)
  /-- Does `workspace/temp_repo` exist when the call completes? -/
  tmpExists : Bool
deriving DecidableEq

/-- `get_branches(repo_url)` with the temporary-directory lifecycle.
`tmp0` is whether `workspace/temp_repo` exists on entry; the first
statements remove it if so, hence no outcome depends on `tmp0`. -/
def get_branches (tmp0 : Bool) (env : GetBranchesEnv) : GetBranchesResult :=
  let _removedFirst := tmp0 = false
  if env.cloneOk then
    if env.refsOk then
      { result := some (branchesFromRefs env.refs), tmpExists := false }
    else
      { result := none, tmpExists := true }
  else
    { result := none, tmpExists := env.cloneFailLeavesDir }

/-! ## The form handlers (`main`, lines 62-129)

Each button press runs a handler.  The model records, for the two
handlers, the outcome the user observes and (for the build handler)
the filesystem effects issued, with the outcome of every external step
as input.  The fetch handler wraps `get_branches` in
`try ... except GitCommandError` (lines 78-85): only that exception
kind becomes an error message.  The build handler (lines 98-129)
checks its preconditions first, wraps only `clone_repo` in
`try ... except Exception`, turns a locator miss into an error
message, and calls both `zip_directory` (line 125) and, for the
download button, `open(zip_path, "rb")` (line 128) outside any
`try`. -/

inductive FetchOutcome where
  | fetched (branches : List String)
  | errorShown
  | raised (e : PyExc)
deriving DecidableEq

/-- The fetch-branches button handler: `get_branches` with only
`GitCommandError` caught. -/
def fetch_handler (result : Except PyExc (List String)) : FetchOutcome :=
  match result with
  | .ok bs => .fetched bs
  | .error .gitCommandError => .errorShown
  | .error e => .raised e

inductive BuildOutcome where
  | warned
  | cloneErrorShown
  | locateErrorShown
  | packaged
  | raised (e : PyExc)
deriving DecidableEq

inductive FsEffect where
  | rmtreeEffect
  | cloneEffect
  | zipWriteEffect
deriving DecidableEq

structure BuildEnv where
  /-- Is `repo_url` non-empty (Python truthiness of the text input)? -/
  urlPresent : Bool
  /-- Is `st.session_state.selected_branch` set (truthy)? -/
  branchSelected : Bool
  /-- Does the derived clone destination already exist? -/
  destExists : Bool
  /-- Outcome of `clone_repo`. -/
  cloneResult : Except PyExc Unit
  /-- Outcome of `find_build_dir`. -/
  locateResult : Option String
  /-- Outcome of `zip_directory` (archive creation). -/
  zipResult : Except PyExc Unit
  /-- Outcome of `open(zip_path, "rb")` for the download button. -/
  openResult : Except PyExc Unit

/-- The build-and-package button handler: observed outcome and the
filesystem effects issued, in order.  After a successful archive
write, the handler still reopens the archive for the download button
(line 128), also outside any `try`. -/
def build_handler (env : BuildEnv) : BuildOutcome × List FsEffect :=
  if !env.urlPresent || !env.branchSelected then
    (.warned, [])
  else
    let cloneEffects :=
      (if env.destExists then [FsEffect.rmtreeEffect] else []) ++ [FsEffect.cloneEffect]
    match env.cloneResult with
    | .error _ => (.cloneErrorShown, cloneEffects)
    | .ok _ =>
      match env.locateResult with
      | none => (.locateErrorShown, cloneEffects)
      | some _ =>
        match env.zipResult with
        | .error e => (.raised e, cloneEffects ++ [FsEffect.zipWriteEffect])
        | .ok _ =>
          match env.openResult with
          | .error e => (.raised e, cloneEffects ++ [FsEffect.zipWriteEffect])
          | .ok _ => (.packaged, cloneEffects ++ [FsEffect.zipWriteEffect])

/-! ## Concrete trees used to instantiate the theorems -/

/-- A repository tree containing only `dist` and `out` (UI candidates
without `build`). -/
def repoDistOut : FSTree :=
  .dir (.cons "dist" (.dir (.cons "bundle.js" (.file [1, 2]) .nil))
    (.cons "out" (.dir .nil) .nil))

/-- Children of a build directory with one file and one empty
subdirectory. -/
def emptySubEntries : FSEntries :=
  .cons "app.js" (.file [7, 8])
    (.cons "emptysub" (.dir .nil) .nil)

/-- Children of a small well-formed build directory: two files, one
nested. -/
def smallBuildEntries : FSEntries :=
  .cons "index.html" (.file [10])
    (.cons "static" (.dir (.cons "main.css" (.file [20, 21]) .nil)) .nil)

/-! # Theorems -/

/-! ## Order lemmas for the Python string comparison -/

theorem lexLe_total : ∀ as bs, lexLe as bs = true ∨ lexLe bs as = true := by
  intro as
  induction as with
  | nil => intro bs; left; rfl
  | cons a as ih =>
    intro bs
    cases bs with
    | nil => right; rfl
    | cons b bs =>
      simp only [lexLe]
      rcases Nat.lt_trichotomy a.toNat b.toNat with h | h | h
      · left; simp [h]
      · have hba : ¬ b.toNat < a.toNat := by omega
        have hab : ¬ a.toNat < b.toNat := by omega
        rcases ih bs with h2 | h2
        · left; simp [hab, hba, h2]
        · right; simp [hab, hba, h2]
      · right; simp [h]

theorem lexLe_trans :
    ∀ as bs cs, lexLe as bs = true → lexLe bs cs = true → lexLe as cs = true := by
  intro as
  induction as with
  | nil => intro bs cs _ _; rfl
  | cons a as ih =>
    intro bs cs h1 h2
    cases bs with
    | nil => simp [lexLe] at h1
    | cons b bs =>
      cases cs with
      | nil => simp [lexLe] at h2
      | cons c cs =>
        simp only [lexLe] at h1 h2 ⊢
        rcases Nat.lt_trichotomy a.toNat b.toNat with hab | hab | hab
        · rcases Nat.lt_trichotomy b.toNat c.toNat with hbc | hbc | hbc
          · simp [show a.toNat < c.toNat from by omega]
          · simp [show a.toNat < c.toNat from by omega]
          · simp [show ¬ b.toNat < c.toNat from by omega, hbc] at h2
        · rcases Nat.lt_trichotomy b.toNat c.toNat with hbc | hbc | hbc
          · simp [show a.toNat < c.toNat from by omega]
          · have e1 : ¬ a.toNat < b.toNat := by omega
            have e2 : ¬ b.toNat < a.toNat := by omega
            have e3 : ¬ b.toNat < c.toNat := by omega
            have e4 : ¬ c.toNat < b.toNat := by omega
            have e5 : ¬ a.toNat < c.toNat := by omega
            have e6 : ¬ c.toNat < a.toNat := by omega
            simp [e1, e2] at h1
            simp [e3, e4] at h2
            simp [e5, e6]
            exact ih bs cs h1 h2
          · simp [show ¬ b.toNat < c.toNat from by omega, hbc] at h2
        · simp [show ¬ a.toNat < b.toNat from by omega, hab] at h1

theorem strLe_isTotal : IsTotal String (fun a b => strLe a b = true) :=
  ⟨fun a b => lexLe_total a.data b.data⟩

theorem strLe_isTrans : IsTrans String (fun a b => strLe a b = true) :=
  ⟨fun a b c => lexLe_trans a.data b.data c.data⟩

/-! ## Properties of `branchesFromRefs` -/

theorem branchesFromRefs_sorted (refs : List String) :
    (branchesFromRefs refs).Sorted (fun a b => strLe a b = true) :=
  @List.sorted_insertionSort String (fun a b => strLe a b = true) _
    strLe_isTotal strLe_isTrans _

theorem branchesFromRefs_nodup (refs : List String) :
    (branchesFromRefs refs).Nodup :=
  (List.perm_insertionSort _ _).nodup_iff.mpr (List.nodup_dedup _)

theorem branchesFromRefs_mem (refs : List String) (s : String) :
    s ∈ branchesFromRefs refs ↔ ∃ r ∈ refs, s = lastSegment r := by
  simp only [branchesFromRefs, List.mem_insertionSort, List.mem_dedup, List.mem_map]
  constructor
  · rintro ⟨r, hr, rfl⟩; exact ⟨r, hr, rfl⟩
  · rintro ⟨r, hr, rfl⟩; exact ⟨r, hr, rfl⟩

/-! ## Claim C1 -/

/-- C1 (counterexample): as stated, the claim fails — for a remote
whose single branch is the hierarchical name `feature/x`,
`get_branches` returns `["x"]`, which is not equal as a set to the set
`{"feature/x"}` of remote branch names. -/
theorem C1_counterexample :
    ¬ (∀ s : String, s ∈ listBranches ["feature/x"] ↔ s ∈ (["feature/x"] : List String)) := by
  intro h
  exact absurd ((h "x").mp (by decide)) (by decide)

/-- C1 (amended): for every remote with at least one branch,
`get_branches` returns a list sorted in Python's lexicographic string
order, without duplicates, and equal as a set to the set of final
`/`-separated segments of the remote branch refs (for flat branch
names that segment is the branch name itself). -/
theorem C1_sorted_nodup_segments (bs : List String) (_h : bs ≠ []) :
    (listBranches bs).Sorted (fun a b => strLe a b = true) ∧
    (listBranches bs).Nodup ∧
    (∀ s, s ∈ listBranches bs ↔ ∃ b ∈ bs, s = lastSegment ("origin/" ++ b)) := by
  refine ⟨branchesFromRefs_sorted _, branchesFromRefs_nodup _, fun s => ?_⟩
  rw [listBranches, branchesFromRefs_mem]
  simp only [remoteRefs, List.mem_map]
  constructor
  · rintro ⟨r, ⟨b, hb, rfl⟩, rfl⟩; exact ⟨b, hb, rfl⟩
  · rintro ⟨b, hb, rfl⟩; exact ⟨_, ⟨b, hb, rfl⟩, rfl⟩

/-- C1 (witness): the amended theorem applied to the one-branch remote
`["main"]`. -/
theorem C1_witness :
    (listBranches ["main"]).Sorted (fun a b => strLe a b = true) ∧
    (listBranches ["main"]).Nodup ∧
    (∀ s, s ∈ listBranches ["main"] ↔ ∃ b ∈ (["main"] : List String), s = lastSegment ("origin/" ++ b)) :=
  C1_sorted_nodup_segments ["main"] (by decide)

/-! ## Claim C9 -/

/-- C9: `get_branches` reports, for every remote ref read, exactly the
final `/`-separated segment of the ref name: membership in the result
is membership among final segments; concretely the hierarchical branch
ref `origin/feature/x` is reported as `x`, two refs sharing the final
segment `x` are merged into the single entry `x`, and a remote `HEAD`
ref contributes the entry `HEAD`. -/
theorem C9_final_segments :
    (∀ (refs : List String) (s : String),
      s ∈ branchesFromRefs refs ↔ ∃ r ∈ refs, s = lastSegment r) ∧
    branchesFromRefs ["origin/feature/x"] = ["x"] ∧
    branchesFromRefs ["origin/alpha/x", "origin/beta/x"] = ["x"] ∧
    branchesFromRefs ["origin/HEAD", "origin/main"] = ["HEAD", "main"] :=
  ⟨branchesFromRefs_mem, by decide, by decide, by decide⟩

/-! ## Claim C2 -/

/-- C2 (counterexample): the claim's derived paths are wrong for the
scenario URL — `repo_name` is the final URL segment `demo.git` (the
code never strips a `.git` suffix), so the clone path is
`workspace/demo.git-main`, not `workspace/demo-main`, and the archive
is `workspace/demo.git-main-UI.zip`, not `workspace/demo-main-UI.zip`. -/
theorem C2_counterexample :
    derivedClonePath "https://example.com/demo.git" "main" ≠ ["workspace", "demo-main"] ∧
    derivedZipPath "https://example.com/demo.git" "main" ProjectType.UI ≠
      ["workspace", "demo-main-UI.zip"] := by
  constructor
  · decide
  · decide

/-- C2 (amended): in the end-to-end scenario the repo name used in
both derived paths is the final URL segment `demo.git`, giving clone
path `workspace/demo.git-main` and archive
`workspace/demo.git-main-UI.zip`. -/
theorem C2_derived_paths :
    repoNameOf "https://example.com/demo.git" = "demo.git" ∧
    derivedClonePath "https://example.com/demo.git" "main" = ["workspace", "demo.git-main"] ∧
    derivedZipPath "https://example.com/demo.git" "main" ProjectType.UI =
      ["workspace", "demo.git-main-UI.zip"] := by
  refine ⟨by decide, by decide, by decide⟩

/-! ## Claim C3 -/

/-- C3: `find_build_dir` returns `some f` exactly when `f` is the
first name in the project type's declared candidate list that exists
as a directory under the repo root, and `none` exactly when no
candidate does; in particular, for UI candidates
`["build","dist","out"]` and a tree containing only `dist` and `out`,
it returns `dist`. -/
theorem C3_find_build_dir_first_match :
    (∀ (repo : FSTree) (pt : ProjectType) (f : String),
      find_build_dir repo pt = some f ↔
        (pathExistsb repo [f] && pathIsDirb repo [f]) = true ∧
        ∃ l1 l2, BUILD_DIRS pt = l1 ++ f :: l2 ∧
          ∀ g ∈ l1, (pathExistsb repo [g] && pathIsDirb repo [g]) = false) ∧
    (∀ (repo : FSTree) (pt : ProjectType),
      find_build_dir repo pt = none ↔
        ∀ f ∈ BUILD_DIRS pt, (pathExistsb repo [f] && pathIsDirb repo [f]) = false) ∧
    find_build_dir repoDistOut ProjectType.UI = some "dist" := by
  refine ⟨fun repo pt f => ?_, fun repo pt => ?_, by decide⟩
  · rw [find_build_dir, List.find?_eq_some]
    simp only [Bool.not_eq_true']
  · rw [find_build_dir, List.find?_eq_none]
    simp only [Bool.not_eq_true]

/-! ## Claim C5 -/

/-- C5: `clone_repo` issues a recursive delete exactly when the
destination exists, followed by a clone of exactly the named branch;
run against any prior destination state it succeeds and leaves the
destination holding precisely the fresh clone of that branch — no
leftover state survives (the result does not depend on `st`). -/
theorem C5_clone_replaces (gitContent : String → FSTree) (st : Option FSTree) (branch : String) :
    clone_repo_ops true branch = [CloneOp.rmtreeOp, CloneOp.gitCloneBranch branch] ∧
    clone_repo_ops false branch = [CloneOp.gitCloneBranch branch] ∧
    clone_repo gitContent st branch = .ok (some (gitContent branch)) := by
  refine ⟨rfl, rfl, ?_⟩
  cases st <;> simp [clone_repo, clone_repo_ops, runCloneOps, applyCloneOp]

/-! ## Claim C6 -/

/-- C6 (counterexample): the temporary directory is not always removed
— when the shallow clone succeeds but reading the remote refs raises,
`get_branches` exits by exception with `workspace/temp_repo` still
present. -/
theorem C6_counterexample :
    ¬ (∀ (tmp0 : Bool) (env : GetBranchesEnv), (get_branches tmp0 env).tmpExists = false) := by
  intro h
  have h2 := h false ⟨true, false, false, []⟩
  simp [get_branches] at h2

/-- C6 (amended): a pre-existing temporary directory is removed at the
start of every invocation (no outcome depends on it), and the
temporary directory is removed before every *successful* listing
returns; when the clone or the refs read fails, the code has no
`finally` and the directory can be left behind. -/
theorem C6_tmp_removed_on_success (tmp0 : Bool) (env : GetBranchesEnv) :
    ((get_branches tmp0 env).result.isSome → (get_branches tmp0 env).tmpExists = false) ∧
    get_branches tmp0 env = get_branches false env := by
  constructor
  · intro hs
    by_cases hc : env.cloneOk <;> by_cases hr : env.refsOk <;>
      simp [get_branches, hc, hr] at hs ⊢
  · rfl

/-- C6 (witness): the amended theorem at a successful listing. -/
theorem C6_witness :
    (get_branches true ⟨true, false, true, ["origin/main"]⟩).tmpExists = false :=
  (C6_tmp_removed_on_success true ⟨true, false, true, ["origin/main"]⟩).1 (by decide)

/-! ## Claim C7 -/

/-- C7 (counterexample): not every step's failure is caught — the call
`zip_directory(build_path, zip_path)` sits outside every `try` block,
so an `IOError` raised while creating the archive propagates out of
the build action handler. -/
theorem C7_counterexample :
    ¬ (∀ (env : BuildEnv) (e : PyExc), (build_handler env).1 ≠ BuildOutcome.raised e) := by
  intro h
  exact h ⟨true, true, false, .ok (), some "build", .error .ioError, .ok ()⟩ .ioError (by decide)

/-- C7 (amended): failures are converted to displayed messages for
cloning (every exception kind), for a locator miss, and for branch
listing when the failure is a `GitCommandError`; but the archive
creation (line 125) and the download reopen of the archive (line 128)
sit outside every `try`, so a failure of either propagates out of the
build handler — it never raises only when both succeed — and a
non-`GitCommandError` listing failure propagates out of the fetch
handler, which shows a message exactly for `GitCommandError`. -/
theorem C7_exception_policy (env : BuildEnv) :
    (env.zipResult = .ok () → env.openResult = .ok () →
      ∀ e, (build_handler env).1 ≠ BuildOutcome.raised e) ∧
    (∀ bs, fetch_handler (.ok bs) = .fetched bs) ∧
    fetch_handler (.error PyExc.gitCommandError) = .errorShown ∧
    (∀ e, e ≠ PyExc.gitCommandError → fetch_handler (.error e) = .raised e) := by
  refine ⟨fun hzip hopen e => ?_, fun bs => rfl, rfl, fun e he => ?_⟩
  · obtain ⟨u, b, d, c, l, z, o⟩ := env
    cases hzip
    cases hopen
    by_cases hu : u <;> by_cases hb : b <;> cases c <;> cases l <;>
      simp [build_handler, hu, hb]
  · cases e with
    | gitCommandError => exact absurd rfl he
    | ioError => rfl
    | otherError => rfl

/-- C7 (witness): the amended theorem at a build whose archive write
and download reopen both succeed. -/
theorem C7_witness :
    (build_handler ⟨true, true, true, .ok (), some "build", .ok (), .ok ()⟩).1 ≠
      BuildOutcome.raised PyExc.ioError :=
  (C7_exception_policy ⟨true, true, true, .ok (), some "build", .ok (), .ok ()⟩).1
    rfl rfl PyExc.ioError

/-! ## Claim C8 -/

/-- C8: triggering the build with no URL present or no branch selected
makes the handler surface the warning and return before any filesystem
effect: no delete, no clone, no archive write. -/
theorem C8_reject_without_mutation (env : BuildEnv)
    (h : env.urlPresent = false ∨ env.branchSelected = false) :
    build_handler env = (BuildOutcome.warned, []) := by
  obtain ⟨u, b, d, c, l, z, o⟩ := env
  rcases h with h | h <;> cases h <;> simp [build_handler]

/-- C8 (witness): a build press with a URL but no selected branch. -/
theorem C8_witness :
    build_handler ⟨true, false, true, .ok (), some "build", .ok (), .ok ()⟩ =
      (BuildOutcome.warned, []) :=
  C8_reject_without_mutation ⟨true, false, true, .ok (), some "build", .ok (), .ok ()⟩
    (Or.inr rfl)

/-! ## The walk visits exactly the files of the tree -/

theorem walkFiles_eq : ∀ (es : FSEntries) (root : FPath),
    walkFiles es root = (relFilesTop es).map (fun pc => (root ++ pc.1, pc.2))
  | .nil, _ => rfl
  | .cons n (.file c) r, root => by
    simp [walkFiles, relFilesTop, walkFiles_eq r root]
  | .cons n (.dir es2) r, root => by
    simp [walkFiles, relFilesTop, walkFiles_eq r root]

mutual

theorem walkAbs_eq : ∀ (t : FSTree) (root : FPath),
    walkAbs t root = (relFiles t).map (fun pc => (root ++ pc.1, pc.2))
  | .file _, _ => rfl
  | .dir es, root => by
    rw [walkAbs, relFiles, List.map_append, walkFiles_eq, walkSub_eq es root]

theorem walkSub_eq : ∀ (es : FSEntries) (root : FPath),
    walkSub es root = (relSub es).map (fun pc => (root ++ pc.1, pc.2))
  | .nil, _ => rfl
  | .cons n t r, root => by
    rw [walkSub, relSub, List.map_append, walkAbs_eq t (root ++ [n]), walkSub_eq r root,
      List.map_map]
    congr 1
    apply List.map_congr_left
    intro pc _
    simp

end

theorem relative_to_append (sd p : FPath) : relative_to (sd ++ p) sd = some p := by
  induction sd with
  | nil => cases p <;> rfl
  | cons b sd ih => simp [relative_to, ih]

theorem collectEntries_map (l : List (FPath × Content)) (sd : FPath) :
    collectEntries (l.map (fun pc => (sd ++ pc.1, pc.2))) sd = some l := by
  induction l with
  | nil => rfl
  | cons pc l ih => simp [collectEntries, relative_to_append, ih]

/-- `zip_directory` never hits the `relative_to` failure and writes
exactly one entry per file of the tree, keyed by the file's path
relative to the source directory, in walk order. -/
theorem zip_directory_eq (sd : FPath) (t : FSTree) :
    zip_directory sd t = some (relFiles t) := by
  rw [zip_directory, walkAbs_eq, collectEntries_map]

/-! ## Reading entries back -/

theorem lookupEntry_append (a b : List (FPath × Content)) (p : FPath) :
    lookupEntry (a ++ b) p =
      match lookupEntry a p with
      | some c => some c
      | none => lookupEntry b p := by
  induction a with
  | nil => rfl
  | cons e a ih =>
    by_cases he : e.1 = p <;> simp [lookupEntry, he, ih]

theorem lookupEntry_map_same (l : List (FPath × Content)) (n : String) (q : FPath) :
    lookupEntry (l.map (fun pc => (n :: pc.1, pc.2))) (n :: q) = lookupEntry l q := by
  induction l with
  | nil => rfl
  | cons e l ih =>
    by_cases he : e.1 = q
    · simp [lookupEntry, he]
    · have : ¬ ((n :: e.1 : FPath) = n :: q) := by simp [he]
      simp [lookupEntry, he, this, ih]

theorem lookupEntry_map_ne (l : List (FPath × Content)) (n m : String) (q : FPath)
    (h : m ≠ n) :
    lookupEntry (l.map (fun pc => (n :: pc.1, pc.2))) (m :: q) = none := by
  induction l with
  | nil => rfl
  | cons e l ih =>
    have : ¬ ((n :: e.1 : FPath) = m :: q) := by
      intro hc
      exact h (by injection hc with h1 _; exact h1.symm)
    simp [lookupEntry, this, ih]

theorem lookupEntry_eq_none (l : List (FPath × Content)) (p : FPath)
    (h : ∀ c, (p, c) ∉ l) : lookupEntry l p = none := by
  induction l with
  | nil => rfl
  | cons e l ih =>
    have he : ¬ (e.1 = p) := by
      intro hc
      exact h e.2 (by simp [← hc])
    refine (by simp [lookupEntry, he] : lookupEntry (e :: l) p = lookupEntry l p).trans (ih ?_)
    intro c hc
    exact h c (List.mem_cons_of_mem _ hc)

theorem lookupEntry_isSome_of_mem (l : List (FPath × Content)) (p : FPath) (c : Content)
    (h : (p, c) ∈ l) : ∃ c2, lookupEntry l p = some c2 := by
  induction l with
  | nil => simp at h
  | cons e l ih =>
    by_cases he : e.1 = p
    · exact ⟨e.2, by simp [lookupEntry, he]⟩
    · rcases List.mem_cons.mp h with h1 | h1
      · exact absurd (congrArg Prod.fst h1.symm) he
      · rcases ih h1 with ⟨c2, hc2⟩
        exact ⟨c2, by simp [lookupEntry, he, hc2]⟩

/-! ## Shapes of the relative paths the walk produces -/

theorem relFilesTop_shape : ∀ (es : FSEntries) (p : FPath) (c : Content),
    (p, c) ∈ relFilesTop es → ∃ m, p = [m] ∧ m ∈ namesOf es
  | .nil, p, c, h => by simp [relFilesTop] at h
  | .cons n (.file c2) r, p, c, h => by
    rw [relFilesTop] at h
    rcases List.mem_cons.mp h with h1 | h1
    · exact ⟨n, congrArg Prod.fst h1, by simp [namesOf]⟩
    · rcases relFilesTop_shape r p c h1 with ⟨m, hm, hmem⟩
      exact ⟨m, hm, by simp [namesOf, hmem]⟩
  | .cons n (.dir es2) r, p, c, h => by
    rw [relFilesTop] at h
    rcases relFilesTop_shape r p c h with ⟨m, hm, hmem⟩
    exact ⟨m, hm, by simp [namesOf, hmem]⟩

theorem relSub_shape : ∀ (es : FSEntries) (p : FPath) (c : Content),
    (p, c) ∈ relSub es → ∃ m q, p = m :: q ∧ m ∈ namesOf es
  | .nil, p, c, h => by simp [relSub] at h
  | .cons n t r, p, c, h => by
    rw [relSub] at h
    rcases List.mem_append.mp h with h1 | h1
    · rcases List.mem_map.mp h1 with ⟨pc, _, hpc⟩
      refine ⟨n, pc.1, ?_, by simp [namesOf]⟩
      have := congrArg Prod.fst hpc
      simpa using this.symm
    · rcases relSub_shape r p c h1 with ⟨m, q, hm, hmem⟩
      exact ⟨m, q, hm, by simp [namesOf, hmem]⟩

theorem getEntry_none : ∀ (es : FSEntries) (n : String), n ∉ namesOf es →
    getEntry es n = none
  | .nil, _, _ => rfl
  | .cons m t r, n, h => by
    simp only [namesOf, List.mem_cons, not_or] at h
    have hmn : ¬ (m = n) := fun hc => h.1 hc.symm
    show (if m = n then some t else getEntry r n) = none
    rw [if_neg hmn, getEntry_none r n h.2]

theorem getFile_cons_ne (n m : String) (t : FSTree) (r : FSEntries) (rest : FPath)
    (h : ¬ (n = m)) :
    getFile (.dir (.cons n t r)) (m :: rest) = getFile (.dir r) (m :: rest) := by
  rw [getFile, getFile, getNode, getNode]
  show (match (match (if n = m then some t else getEntry r m) with
      | some t2 => getNode t2 rest
      | none => none) with
    | some (.file c) => some c
    | _ => none) = _
  rw [if_neg h]


theorem contains_false_not_mem (l : List String) (n : String)
    (h : l.contains n = false) : n ∉ l := by
  intro hmem
  have h2 := List.elem_eq_true_of_mem hmem
  rw [show l.contains n = List.elem n l from rfl, h2] at h
  exact Bool.noConfusion h

theorem relFiles_dir (es : FSEntries) :
    relFiles (.dir es) = relFilesTop es ++ relSub es := by
  rw [relFiles]

/-- Looking an arcname up in the archive of a well-formed directory is
exactly reading the file at that relative path in the source tree. -/
theorem rt_entries : ∀ (es : FSEntries), FSEntries.wfb es = true →
    ∀ p, lookupEntry (relFiles (.dir es)) p = getFile (.dir es) p
  | .nil, _, p => by
    cases p <;>
      simp [relFiles, relFilesTop, relSub, lookupEntry, getFile, getNode, getEntry]
  | .cons n (.file c) r, h, p => by
    rw [FSEntries.wfb] at h
    simp only [Bool.and_eq_true, Bool.not_eq_true'] at h
    obtain ⟨⟨hn0, _⟩, hr⟩ := h
    have hn : n ∉ namesOf r := contains_false_not_mem _ _ hn0
    have ih : ∀ q, lookupEntry (relFilesTop r ++ relSub r) q = getFile (.dir r) q :=
      fun q => by rw [← relFiles_dir]; exact rt_entries r hr q
    have hlist : relFiles (.dir (.cons n (.file c) r)) =
        ([n], c) :: (relFilesTop r ++ relSub r) := by
      rw [relFiles, relFilesTop, relSub, relFiles]
      simp
    rw [hlist]
    cases p with
    | nil =>
      have h0 : lookupEntry (relFilesTop r ++ relSub r) ([] : FPath) = none := by
        apply lookupEntry_eq_none
        intro c2 hmem
        rcases List.mem_append.mp hmem with hm | hm
        · rcases relFilesTop_shape r _ _ hm with ⟨m, hm1, _⟩
          exact List.noConfusion hm1
        · rcases relSub_shape r _ _ hm with ⟨m, q, hm1, _⟩
          exact List.noConfusion hm1
      simp [lookupEntry, h0, getFile, getNode]
    | cons m rest =>
      by_cases hnm : n = m
      · subst hnm
        cases rest with
        | nil => simp [lookupEntry, getFile, getNode, getEntry]
        | cons x xs =>
          have hne : ¬ (([n] : FPath) = n :: x :: xs) := by simp
          have hgr : getEntry r n = none := getEntry_none r n hn
          simp only [lookupEntry, hne, if_false, ih]
          simp [getFile, getNode, getEntry, hgr]
      · have hne : ¬ (([n] : FPath) = m :: rest) := by
          intro hc
          exact hnm (List.head_eq_of_cons_eq hc)
        simp only [lookupEntry, hne, if_false, ih]
        rw [getFile_cons_ne n m _ r rest hnm]
  | .cons n (.dir es2) r, h, p => by
    rw [FSEntries.wfb] at h
    simp only [Bool.and_eq_true, Bool.not_eq_true'] at h
    obtain ⟨⟨hn0, ht⟩, hr⟩ := h
    rw [FSTree.wfb] at ht
    have hn : n ∉ namesOf r := contains_false_not_mem _ _ hn0
    have ih : ∀ q, lookupEntry (relFilesTop r ++ relSub r) q = getFile (.dir r) q :=
      fun q => by rw [← relFiles_dir]; exact rt_entries r hr q
    have ih2 : ∀ q, lookupEntry (relFiles (.dir es2)) q = getFile (.dir es2) q :=
      rt_entries es2 ht
    have hlist : relFiles (.dir (.cons n (.dir es2) r)) =
        relFilesTop r ++ ((relFiles (.dir es2)).map (fun pc => (n :: pc.1, pc.2)) ++ relSub r) := by
      rw [relFiles, relFilesTop, relSub]
    rw [hlist, lookupEntry_append, lookupEntry_append]
    cases p with
    | nil =>
      have hA : lookupEntry (relFilesTop r) ([] : FPath) = none := by
        apply lookupEntry_eq_none
        intro c2 hmem
        rcases relFilesTop_shape r _ _ hmem with ⟨m, hm1, _⟩
        exact List.noConfusion hm1
      have hB : lookupEntry ((relFiles (.dir es2)).map (fun pc => (n :: pc.1, pc.2)))
          ([] : FPath) = none := by
        apply lookupEntry_eq_none
        intro c2 hmem
        rcases List.mem_map.mp hmem with ⟨pc, _, hpc⟩
        exact List.noConfusion (congrArg Prod.fst hpc)
      have hC : lookupEntry (relSub r) ([] : FPath) = none := by
        apply lookupEntry_eq_none
        intro c2 hmem
        rcases relSub_shape r _ _ hmem with ⟨m, q, hm1, _⟩
        exact List.noConfusion hm1
      rw [hA, hB, hC]
      simp [getFile, getNode]
    | cons m rest =>
      by_cases hnm : n = m
      · subst hnm
        have hA : lookupEntry (relFilesTop r) (n :: rest) = none := by
          apply lookupEntry_eq_none
          intro c2 hmem
          rcases relFilesTop_shape r _ _ hmem with ⟨m2, hm1, hm2⟩
          have hm3 : m2 = n := (List.head_eq_of_cons_eq hm1).symm
          exact hn (hm3 ▸ hm2)
        have hC : lookupEntry (relSub r) (n :: rest) = none := by
          apply lookupEntry_eq_none
          intro c2 hmem
          rcases relSub_shape r _ _ hmem with ⟨m2, q, hm1, hm2⟩
          have hm3 : m2 = n := (List.head_eq_of_cons_eq hm1).symm
          exact hn (hm3 ▸ hm2)
        have hB : lookupEntry ((relFiles (.dir es2)).map (fun pc => (n :: pc.1, pc.2)))
            (n :: rest) = getFile (.dir es2) rest := by
          rw [lookupEntry_map_same, ih2]
        have hR : getFile (.dir (.cons n (.dir es2) r)) (n :: rest) =
            getFile (.dir es2) rest := by
          rw [getFile, getFile, getNode, getEntry, if_pos rfl]
        rw [hA, hB, hC, hR]
        cases getFile (.dir es2) rest <;> rfl
      · have hB : lookupEntry ((relFiles (.dir es2)).map (fun pc => (n :: pc.1, pc.2)))
            (m :: rest) = none :=
          lookupEntry_map_ne _ n m rest (fun hc => hnm hc.symm)
        rw [hB, getFile_cons_ne n m _ r rest hnm, ← ih (m :: rest), lookupEntry_append]

/-! ## Claim C4 -/

/-- C4: for every well-formed directory tree, `zip_directory` succeeds
(the `relative_to` computation never fails) and the resulting archive
round-trips: reading any relative path out of the extracted archive
yields exactly the bytes of the source tree's regular file at that
path (and nothing at paths that hold no regular file); a tree
containing no regular files yields a valid archive with zero entries
rather than an error. -/
theorem C4_archive_roundtrip (sd : FPath) (es : FSEntries)
    (h : FSEntries.wfb es = true) :
    ∃ entries, zip_directory sd (.dir es) = some entries ∧
      (∀ p, lookupEntry entries p = getFile (.dir es) p) ∧
      ((∀ p c, ¬ (getFile (.dir es) p = some c)) → entries = []) := by
  refine ⟨relFiles (.dir es), zip_directory_eq sd _, rt_entries es h, ?_⟩
  intro hnof
  cases hE : relFiles (.dir es) with
  | nil => rfl
  | cons e rest =>
    exfalso
    have hmem : (e.1, e.2) ∈ relFiles (.dir es) := by
      rw [hE]
      exact List.mem_cons_self _ _
    rcases lookupEntry_isSome_of_mem _ _ _ hmem with ⟨c2, hc2⟩
    rw [rt_entries es h e.1] at hc2
    exact hnof e.1 c2 hc2

/-- C4 (witness): the round-trip theorem at a concrete two-file build
tree. -/
theorem C4_witness :
    ∃ entries,
      zip_directory ["workspace", "demo.git-main", "build"] (.dir smallBuildEntries) =
        some entries ∧
      (∀ p, lookupEntry entries p = getFile (.dir smallBuildEntries) p) ∧
      ((∀ p c, ¬ (getFile (.dir smallBuildEntries) p = some c)) → entries = []) :=
  C4_archive_roundtrip ["workspace", "demo.git-main", "build"] smallBuildEntries (by decide)

/-! ## Claim C10 -/

/-- C10: the archive holds entries for regular files only — every
entry's arcname resolves to a regular file of the source tree, and no
path that resolves to a directory is an arcname; concretely, zipping a
tree with the empty subdirectory `emptysub` produces only the entry
for `app.js`, and no arcname has `emptysub` as a path prefix, so
extraction (which creates directories only as ancestors of extracted
file paths) does not recreate the empty subdirectory. -/
theorem C10_regular_files_only (sd : FPath) (es : FSEntries)
    (h : FSEntries.wfb es = true) :
    (∀ entries, zip_directory sd (.dir es) = some entries →
      ∀ p c, ((p, c) ∈ entries → ∃ c2, getFile (.dir es) p = some c2) ∧
        (pathIsDirb (.dir es) p = true → ¬ ((p, c) ∈ entries))) ∧
    zip_directory ["build"] (.dir emptySubEntries) = some [(["app.js"], [7, 8])] ∧
    (∀ pc ∈ [((["app.js"] : FPath), ([7, 8] : Content))],
      (["emptysub"] : FPath).isPrefixOf pc.1 = false) := by
  refine ⟨?_, by decide, by decide⟩
  intro entries hz p c
  have hze := zip_directory_eq sd (.dir es)
  rw [hze] at hz
  injection hz with hz
  subst hz
  have hrt := rt_entries es h p
  constructor
  · intro hmem
    rcases lookupEntry_isSome_of_mem _ _ _ hmem with ⟨c2, hc2⟩
    exact ⟨c2, by rw [← hrt, hc2]⟩
  · intro hdir hmem
    rcases lookupEntry_isSome_of_mem _ _ _ hmem with ⟨c2, hc2⟩
    rw [hrt, getFile] at hc2
    rw [pathIsDirb] at hdir
    cases hg : getNode (.dir es) p with
    | none =>
      rw [hg] at hdir
      exact Bool.noConfusion hdir
    | some t2 =>
      cases t2 with
      | file c3 =>
        rw [hg] at hdir
        exact Bool.noConfusion hdir
      | dir es3 =>
        rw [hg] at hc2
        exact Option.noConfusion hc2

/-- C10 (witness): the files-only theorem at the concrete tree with an
empty subdirectory — the directory path `emptysub` is not an arcname. -/
theorem C10_witness :
    ¬ (((["emptysub"] : FPath), ([] : Content)) ∈
        [((["app.js"] : FPath), ([7, 8] : Content))]) :=
  ((C10_regular_files_only ["build"] emptySubEntries (by decide)).1
      [(["app.js"], [7, 8])] (by decide) ["emptysub"] []).2 (by decide)
